import Mathlib

/-!
Verification of the sigma-wasm repository: a 2D Mandelbrot fractal
rasterizer (wasm-fractal-zoom) and a Mandelbulb palette provider
(wasm-babylon-mandelbulb).

Modelling conventions.
IEEE-754 doubles are embedded as exact rationals wrapped in Option:
none models NaN, and every arithmetic operation propagates it; float
comparisons are false on NaN, exactly as in IEEE-754.  The natural
logarithm is transcendental, so the rasterizer is parameterised by an
arbitrary function standing for f64 ln; theorems that depend on
properties of ln state them as hypotheses (collected in LogModel),
which the real logarithm satisfies.  Machine integers u32 and usize
(wasm32, so 32 bits) are Nat with explicit wrap-around modulo 2 to the
32, written where the Rust arithmetic can overflow.  A Rust panic
(out-of-bounds Vec indexing) is modelled by Option: none means the
call panics instead of returning.
-/

namespace SigmaWasm

/-- Model of an IEEE-754 f64 value: an exact rational, or none for NaN. -/
abbrev F64 : Type := Option ℚ

/-- f64 addition; NaN propagates. -/
def fadd : F64 → F64 → F64
  | some a, some b => some (a + b)
  | _, _ => none

/-- f64 subtraction; NaN propagates. -/
def fsub : F64 → F64 → F64
  | some a, some b => some (a - b)
  | _, _ => none

/-- f64 multiplication; NaN propagates. -/
def fmul : F64 → F64 → F64
  | some a, some b => some (a * b)
  | _, _ => none

/-- f64 division; NaN propagates, and division by zero leaves the
rational model (IEEE gives an infinity or NaN), modelled as none. -/
def fdiv : F64 → F64 → F64
  | some a, some b => if b = 0 then none else some (a / b)
  | _, _ => none

/-- f64 strict less-than; false when an operand is NaN, as in IEEE-754. -/
def flt : F64 → F64 → Bool
  | some a, some b => decide (a < b)
  | _, _ => false

/-- f64 greater-or-equal; false when an operand is NaN, as in IEEE-754. -/
def fge : F64 → F64 → Bool
  | some a, some b => decide (b ≤ a)
  | _, _ => false

/-- f64 floor, as in Rust f64::floor; NaN propagates. -/
def ffloor : F64 → F64
  | some a => some ((⌊a⌋ : ℤ) : ℚ)
  | none => none

/-- Rust saturating cast f64 to usize on wasm32: truncation toward
zero, clamped to the range 0 .. 2 ^ 32 - 1; NaN goes to 0. -/
def f2usize : F64 → ℕ
  | some a => min (2 ^ 32 - 1) (Int.toNat ⌊a⌋)
  | none => 0

/-- Rust saturating cast f64 to u8: truncation toward zero, clamped to
the range 0 .. 255; NaN goes to 0. -/
def f2u8 : F64 → ℕ
  | some a => min 255 (Int.toNat ⌊a⌋)
  | none => 0

/-- A byte colour of the 2D rasterizer (fields are u8 values). -/
structure Color where
  r : ℕ
  g : ℕ
  b : ℕ
deriving DecidableEq

/-- PALETTE0 of wasm-fractal-zoom: cyan, magenta, purple, blue, yellow. -/
def PALETTE0 : List Color :=
  [⟨0, 255, 255⟩, ⟨255, 0, 255⟩, ⟨128, 0, 255⟩, ⟨0, 128, 255⟩, ⟨255, 255, 0⟩]

/-- PALETTE1 of wasm-fractal-zoom: hot pink, electric green, deep
purple, tech blue, neon orange. -/
def PALETTE1 : List Color :=
  [⟨255, 0, 128⟩, ⟨0, 255, 128⟩, ⟨128, 0, 255⟩, ⟨0, 128, 255⟩, ⟨255, 128, 0⟩]

/-- Palette selection inside get_color: id 0 gives PALETTE0, every
other id gives PALETTE1. -/
def colorPalette (palette_id : ℕ) : List Color :=
  if palette_id = 0 then PALETTE0 else PALETTE1

/-- The scaled palette position of get_color:
normalized = iterations / max_iterations, scaled = normalized * (n - 1)
with n = 5 the palette length. -/
def colorScaled (iterations max_iterations : F64) : F64 :=
  fmul (fdiv iterations max_iterations) (fsub (some 5) (some 1))

/-- idx1 of get_color: scaled.floor() as usize. -/
def colorIdx1 (iterations max_iterations : F64) : ℕ :=
  f2usize (ffloor (colorScaled iterations max_iterations))

/-- idx2 of get_color: (idx1 + 1).min(palette.len() - 1). -/
def colorIdx2 (iterations max_iterations : F64) : ℕ :=
  min (colorIdx1 iterations max_iterations + 1) (5 - 1)

/-- Fractional part t of get_color: scaled - scaled.floor(). -/
def colorT (iterations max_iterations : F64) : F64 :=
  fsub (colorScaled iterations max_iterations)
    (ffloor (colorScaled iterations max_iterations))

/-- One interpolated channel of get_color:
(c1 as f64 * (1.0 - t) + c2 as f64 * t) as u8. -/
def lerpChannel (c1 c2 : ℕ) (t : F64) : ℕ :=
  f2u8 (fadd (fmul (some (c1 : ℚ)) (fsub (some 1) t)) (fmul (some (c2 : ℚ)) t))

/-- Embedding of get_color from wasm-fractal-zoom.  The source indexes
the palette array with palette[idx1] and palette[idx2]; an
out-of-bounds index panics, modelled by returning none. -/
def get_color (iterations max_iterations : F64) (palette_id : ℕ) :
    Option (ℕ × ℕ × ℕ) :=
  if fge iterations max_iterations then some (0, 0, 0)
  else
    match (colorPalette palette_id)[colorIdx1 iterations max_iterations]?,
        (colorPalette palette_id)[colorIdx2 iterations max_iterations]? with
    | some c1, some c2 =>
        let t := colorT iterations max_iterations
        some (lerpChannel c1.r c2.r t, lerpChannel c1.g c2.g t,
          lerpChannel c1.b c2.b t)
    | _, _ => none

/-- One Mandelbrot step: tmp = zx*zx - zy*zy + cx; zy = 2*zx*zy + cy;
zx = tmp. -/
def iterStep (cx cy : F64) (z : F64 × F64) : F64 × F64 :=
  (fadd (fsub (fmul z.1 z.1) (fmul z.2 z.2)) cx,
   fadd (fmul (fmul (some 2) z.1) z.2) cy)

/-- The squared magnitude zx*zx + zy*zy used by the loop condition and
the smooth colouring. -/
def zMagSq (z : F64 × F64) : F64 := fadd (fmul z.1 z.1) (fmul z.2 z.2)

/-- The escape-time loop of generate_fractal:
while zx*zx + zy*zy < 4.0 and iterations < max_iters.  The fuel
argument is the number of iterations still allowed, so the loop
starting from iteration 0 receives fuel max_iters. -/
def iterLoop (cx cy : F64) : ℕ → (F64 × F64) × ℕ → (F64 × F64) × ℕ
  | 0, s => s
  | fuel + 1, (z, iterations) =>
      if flt (zMagSq z) (some 4) then
        iterLoop cx cy fuel (iterStep cx cy z, iterations + 1)
      else (z, iterations)

/-- The complex x coordinate of a pixel:
cx = (x as f64 / width as f64 - 0.5) * 4.0 * aspect_ratio / zoom + center_x
where the source computes the width to height quotient once before the
loops. -/
def pixel_cx (width height : ℕ) (center_x zoom : F64) (x : ℕ) : F64 :=
  fadd (fdiv (fmul (fmul (fsub (fdiv (some (x : ℚ)) (some (width : ℚ)))
    (some (1 / 2))) (some 4)) (fdiv (some (width : ℚ)) (some (height : ℚ))))
    zoom) center_x

/-- The complex y coordinate of a pixel:
cy = (y as f64 / height as f64 - 0.5) * 4.0 / zoom + center_y. -/
def pixel_cy (height : ℕ) (center_y zoom : F64) (y : ℕ) : F64 :=
  fadd (fdiv (fmul (fsub (fdiv (some (y : ℚ)) (some (height : ℚ)))
    (some (1 / 2))) (some 4)) zoom) center_y

/-- The state (z, iterations) after running the escape loop of
generate_fractal on pixel (x, y), starting from z = 0, iterations = 0. -/
def pixelState (width height : ℕ) (center_x center_y zoom : F64)
    (max_iters : ℕ) (x y : ℕ) : (F64 × F64) × ℕ :=
  iterLoop (pixel_cx width height center_x zoom x)
    (pixel_cy height center_y zoom y) max_iters ((some 0, some 0), 0)

/-- The smoothed iteration count of generate_fractal:
iterations as f64 + 1.0 - z_mag_sq.ln().ln() / 2.0.ln(), with ln the
abstract logarithm parameter. -/
def smoothIter (log : F64 → F64) (z : F64 × F64) (iterations : ℕ) : F64 :=
  fsub (fadd (some (iterations : ℚ)) (some 1))
    (fdiv (log (log (zMagSq z))) (log (some 2)))

/-- The RGBA bytes generate_fractal computes for pixel (x, y): the
black branch when the loop reached max_iters, otherwise the smooth
colouring through get_color with alpha 255.  none models a panic
inside get_color. -/
def pixelColor (log : F64 → F64) (width height : ℕ)
    (center_x center_y zoom : F64) (max_iters palette_id : ℕ) (x y : ℕ) :
    Option (ℕ × ℕ × ℕ × ℕ) :=
  let s := pixelState width height center_x center_y zoom max_iters x y
  if max_iters ≤ s.2 then some (0, 0, 0, 255)
  else
    match get_color (smoothIter log s.1 s.2) (some (max_iters : ℚ)) palette_id with
    | some (r, g, b) => some (r, g, b, 255)
    | none => none

/-- Wrap-around bound of the 32-bit machine integers (u32, and usize on
wasm32). -/
def U32 : ℕ := 2 ^ 32

/-- One store image_data[i] = v of the Rust Vec; an out-of-bounds index
panics, modelled by none. -/
def writeByte (buf : List ℕ) (i v : ℕ) : Option (List ℕ) :=
  if i < buf.length then some (buf.set i v) else none

/-- The four byte stores of one pixel, at idx, idx+1, idx+2, idx+3. -/
def writePixel (buf : List ℕ) (idx : ℕ) (c : ℕ × ℕ × ℕ × ℕ) :
    Option (List ℕ) := do
  let b0 ← writeByte buf idx c.1
  let b1 ← writeByte b0 (idx + 1) c.2.1
  let b2 ← writeByte b1 (idx + 2) c.2.2.1
  writeByte b2 (idx + 3) c.2.2.2

/-- The byte offset ((y * width + x) * 4) as usize, with every u32
operation wrapping modulo 2 ^ 32. -/
def pixelIdx (width x y : ℕ) : ℕ :=
  (y * width % U32 + x) % U32 * 4 % U32

/-- The body of the inner pixel loop: compute the RGBA bytes of pixel
(x, y) and store them. -/
def renderPixel (log : F64 → F64) (width height : ℕ)
    (center_x center_y zoom : F64) (max_iters palette_id : ℕ) (y : ℕ)
    (buf : List ℕ) (x : ℕ) : Option (List ℕ) :=
  match pixelColor log width height center_x center_y zoom max_iters
      palette_id x y with
  | some c => writePixel buf (pixelIdx width x y) c
  | none => none

/-- Embedding of generate_fractal from wasm-fractal-zoom: allocate a
zeroed buffer of (width * height * 4) bytes (u32 arithmetic, wrapping),
then fill it pixel by pixel, row-major.  none models a panic. -/
def generate_fractal (log : F64 → F64) (width height : ℕ)
    (center_x center_y zoom : F64) (max_iters palette_id : ℕ) :
    Option (List ℕ) :=
  (List.range height).foldlM
    (fun buf y =>
      (List.range width).foldlM
        (renderPixel log width height center_x center_y zoom max_iters
          palette_id y) buf)
    (List.replicate (width * height % U32 * 4 % U32) 0)

/-- A concrete computable stand-in for the f64 logarithm, used by
witnesses: x - 1 on numbers, NaN on NaN.  It satisfies LogModel. -/
def logLin : F64 → F64 := fun x => fsub x (some 1)

/-- The properties of the real natural logarithm that the unreachability
argument needs: ln NaN is NaN, ln 2 is positive, and ln (ln q) is
positive for q at least 4. -/
def LogModel (log : F64 → F64) : Prop :=
  log none = none ∧
  (∃ l2, log (some 2) = some l2 ∧ 0 < l2) ∧
  (∀ q : ℚ, 4 ≤ q → ∃ u v, log (some q) = some u ∧ log (some u) = some v ∧ 0 < v)

/-- A float colour of the Mandelbulb palette provider (f32 fields; all
palette entries are exactly representable). -/
structure ColorF where
  r : ℚ
  g : ℚ
  b : ℚ
deriving DecidableEq

/-- PALETTE0 of wasm-babylon-mandelbulb. -/
def MBPALETTE0 : List ColorF :=
  [⟨0, 1, 1⟩, ⟨1, 0, 1⟩, ⟨1 / 2, 0, 1⟩, ⟨0, 1 / 2, 1⟩, ⟨1, 1, 0⟩]

/-- PALETTE1 of wasm-babylon-mandelbulb. -/
def MBPALETTE1 : List ColorF :=
  [⟨1, 0, 1 / 2⟩, ⟨0, 1, 1 / 2⟩, ⟨1 / 2, 0, 1⟩, ⟨0, 1 / 2, 1⟩, ⟨1, 1 / 2, 0⟩]

/-- Embedding of get_palette from wasm-babylon-mandelbulb: the colour
list (the Palette wrapper and JsValue marshaling are host glue, out of
scope). -/
def get_palette (id : ℕ) : List ColorF :=
  if id = 0 then MBPALETTE0 else MBPALETTE1

/-- Embedding of get_flat_palette from wasm-babylon-mandelbulb: the
push loop over the selected palette, emitting r, g, b, 1.0 per colour. -/
def get_flat_palette (id : ℕ) : List ℚ :=
  let palette := if id = 0 then MBPALETTE0 else MBPALETTE1
  palette.foldl (fun flat color => flat ++ [color.r, color.g, color.b, 1]) []

/-- Written from claim C2: the x coordinate formula
cx = (x / width - 0.5) * 4 * aspect_ratio / zoom + center_x with
aspect_ratio = width / height. -/
def spec_cx (width height x : ℕ) (zoom center_x : F64) : F64 :=
  fadd (fdiv (fmul (fmul (fsub (fdiv (some (x : ℚ)) (some (width : ℚ)))
    (some (1 / 2))) (some 4)) (fdiv (some (width : ℚ)) (some (height : ℚ))))
    zoom) center_x

/-- Written from claim C2: the y coordinate formula
cy = (y / height - 0.5) * 4 / zoom + center_y. -/
def spec_cy (height y : ℕ) (zoom center_y : F64) : F64 :=
  fadd (fdiv (fmul (fsub (fdiv (some (y : ℚ)) (some (height : ℚ)))
    (some (1 / 2))) (some 4)) zoom) center_y

/-- Written from claim C2: the smoothed count
iterations + 1 - ln (ln (zsq)) / ln 2 applied to the escape-time
squared magnitude. -/
def specSmooth (log : F64 → F64) (zsq : F64) (iterations : ℕ) : F64 :=
  fsub (fadd (some (iterations : ℚ)) (some 1))
    (fdiv (log (log zsq)) (log (some 2)))

/-- Truncation toward zero of a rational, as claim C5 words the
float-to-byte conversion. -/
def truncZ (q : ℚ) : ℤ :=
  if 0 ≤ q then ⌊q⌋ else -⌊-q⌋

/-- Written from claim C5: the interpolation formulas.  t_n =
iterations / max_iterations, scaled = t_n * (palette_len - 1), idx1 =
floor scaled, idx2 = min (idx1 + 1) (palette_len - 1), t = scaled -
idx1, and every channel is the truncation toward zero of
c1 * (1 - t) + c2 * t between palette idx1 and palette idx2. -/
def specColor (iterations max_iterations : ℚ) (palette_id : ℕ) : ℕ × ℕ × ℕ :=
  let scaled := iterations / max_iterations * (5 - 1)
  let idx1 : ℤ := ⌊scaled⌋
  let idx2 : ℤ := min (idx1 + 1) 4
  let t := scaled - (idx1 : ℚ)
  let c1 := (colorPalette palette_id).getD idx1.toNat ⟨0, 0, 0⟩
  let c2 := (colorPalette palette_id).getD idx2.toNat ⟨0, 0, 0⟩
  ((truncZ ((c1.r : ℚ) * (1 - t) + (c2.r : ℚ) * t)).toNat,
   (truncZ ((c1.g : ℚ) * (1 - t) + (c2.g : ℚ) * t)).toNat,
   (truncZ ((c1.b : ℚ) * (1 - t) + (c2.b : ℚ) * t)).toNat)

end SigmaWasm

namespace SigmaWasm

lemma colorPalette_length (pid : ℕ) : (colorPalette pid).length = 5 := by
  unfold colorPalette
  split <;> rfl

lemma colorPalette_bounded (pid : ℕ) :
    ∀ c ∈ colorPalette pid, c.r ≤ 255 ∧ c.g ≤ 255 ∧ c.b ≤ 255 := by
  unfold colorPalette
  split <;> decide

lemma colorPalette_get (pid k : ℕ) (hk : k < 5) :
    ∃ c, (colorPalette pid)[k]? = some c ∧ c.r ≤ 255 ∧ c.g ≤ 255 ∧ c.b ≤ 255 := by
  have hlen : k < (colorPalette pid).length := by rw [colorPalette_length]; exact hk
  exact ⟨(colorPalette pid)[k], List.getElem?_eq_getElem hlen,
    colorPalette_bounded pid _ (List.getElem_mem hlen)⟩

lemma colorIdx1_le (it : F64) (q : ℚ) (hq : 0 ≤ q) (hge : fge it (some q) = false) :
    colorIdx1 it (some q) ≤ 3 := by
  cases it with
  | none => simp [colorIdx1, colorScaled, fdiv, fmul, fsub, ffloor, f2usize]
  | some s =>
    have hs : s < q := by
      have : ¬ q ≤ s := by simpa [fge] using hge
      exact not_le.mp this
    rcases eq_or_lt_of_le hq with h0 | h0
    · simp [colorIdx1, colorScaled, fdiv, fmul, fsub, ffloor, f2usize, ← h0]
    · have hne : q ≠ 0 := ne_of_gt h0
      have hdiv : s / q < 1 := (div_lt_one h0).mpr hs
      have hscaled : colorScaled (some s) (some q) = some (s / q * (5 - 1)) := by
        simp [colorScaled, fdiv, fmul, fsub, hne]
      have hlt : s / q * (5 - 1) < 4 := by nlinarith
      have hfl : ⌊s / q * (5 - 1)⌋ ≤ 3 := by
        have : ⌊s / q * (5 - 1)⌋ < 4 := Int.floor_lt.mpr (by exact_mod_cast hlt)
        omega
      rw [colorIdx1, hscaled]
      simp only [ffloor, f2usize, Int.floor_intCast]
      omega

lemma colorIdx2_le (it : F64) (mx : F64) : colorIdx2 it mx ≤ 4 :=
  le_trans (Nat.min_le_right _ _) (by norm_num)

lemma get_color_total (it : F64) (q : ℚ) (hq : 0 ≤ q) (pid : ℕ) :
    ∃ c, get_color it (some q) pid = some c := by
  unfold get_color
  cases hge : fge it (some q) with
  | true => exact ⟨(0, 0, 0), by simp⟩
  | false =>
    rw [if_neg (by simp)]
    have h1 := colorIdx1_le it q hq hge
    obtain ⟨c1, hc1, -⟩ := colorPalette_get pid _ (show colorIdx1 it (some q) < 5 by omega)
    obtain ⟨c2, hc2, -⟩ := colorPalette_get pid (colorIdx2 it (some q))
      (by have := colorIdx2_le it (some q); omega)
    rw [hc1, hc2]
    exact ⟨_, rfl⟩

lemma pixelColor_isSome (log : F64 → F64) (w h : ℕ) (cx0 cy0 zoom : F64)
    (mi pid x y : ℕ) :
    ∃ c, pixelColor log w h cx0 cy0 zoom mi pid x y = some c ∧ c.2.2.2 = 255 := by
  by_cases hmi : mi ≤ (pixelState w h cx0 cy0 zoom mi x y).2
  · exact ⟨(0, 0, 0, 255), by simp [pixelColor, hmi], rfl⟩
  · obtain ⟨⟨r, g, b⟩, hc⟩ := get_color_total
      (smoothIter log (pixelState w h cx0 cy0 zoom mi x y).1
        (pixelState w h cx0 cy0 zoom mi x y).2) (mi : ℚ) (Nat.cast_nonneg mi) pid
    exact ⟨(r, g, b, 255), by simp [pixelColor, hmi, hc], rfl⟩

lemma logLin_model : LogModel logLin := by
  refine ⟨rfl, ⟨1, by norm_num [logLin, fsub], one_pos⟩, ?_⟩
  intro q hq
  refine ⟨q - 1, q - 2, rfl, ?_, by linarith⟩
  show fsub (some (q - 1)) (some 1) = some (q - 2)
  simp [fsub]
  ring

lemma lerp_eq_trunc (a b : ℕ) (ha : a ≤ 255) (hb : b ≤ 255) (t : ℚ)
    (ht0 : 0 ≤ t) (ht1 : t < 1) :
    lerpChannel a b (some t) = (truncZ ((a : ℚ) * (1 - t) + (b : ℚ) * t)).toNat := by
  have hv0 : 0 ≤ (a : ℚ) * (1 - t) + (b : ℚ) * t := by
    have h1 : (0 : ℚ) ≤ (a : ℚ) * (1 - t) := mul_nonneg (by positivity) (by linarith)
    have h2 : (0 : ℚ) ≤ (b : ℚ) * t := mul_nonneg (by positivity) ht0
    linarith
  have hv255 : (a : ℚ) * (1 - t) + (b : ℚ) * t ≤ 255 := by
    have h1 : (a : ℚ) ≤ 255 := by exact_mod_cast ha
    have h2 : (b : ℚ) ≤ 255 := by exact_mod_cast hb
    nlinarith
  have hfl : ⌊(a : ℚ) * (1 - t) + (b : ℚ) * t⌋ ≤ 255 := by
    rw [Int.floor_le_iff]
    push_cast
    linarith
  simp only [lerpChannel, f2u8, fadd, fmul, fsub, truncZ, if_pos hv0]
  omega

lemma iterLoop_exit (cx cy : F64) :
    ∀ fuel (s : (F64 × F64) × ℕ),
      (iterLoop cx cy fuel s).2 < s.2 + fuel →
      flt (zMagSq (iterLoop cx cy fuel s).1) (some 4) = false := by
  intro fuel
  induction fuel with
  | zero => intro s hs; simp [iterLoop] at hs
  | succ n ih =>
    intro s hs
    obtain ⟨z, it⟩ := s
    cases hc : flt (zMagSq z) (some 4) with
    | true =>
      rw [iterLoop, if_pos hc] at hs ⊢
      exact ih _ (by omega)
    | false =>
      rw [iterLoop, if_neg (by simp [hc])]
      exact hc

end SigmaWasm

namespace SigmaWasm

lemma writePixel_eq (buf : List ℕ) (idx : ℕ) (c : ℕ × ℕ × ℕ × ℕ)
    (h : idx + 3 < buf.length) :
    writePixel buf idx c =
      some ((((buf.set idx c.1).set (idx + 1) c.2.1).set (idx + 2) c.2.2.1).set
        (idx + 3) c.2.2.2) := by
  simp [writePixel, writeByte, List.length_set,
    show idx < buf.length by omega, show idx + 1 < buf.length by omega,
    show idx + 2 < buf.length by omega, h]

lemma writePixel_some (buf : List ℕ) (idx : ℕ) (c : ℕ × ℕ × ℕ × ℕ)
    (h : idx + 3 < buf.length) :
    ∃ buf', writePixel buf idx c = some buf' ∧
      buf'.length = buf.length ∧
      (∀ j, j < idx ∨ idx + 3 < j → buf'[j]? = buf[j]?) ∧
      buf'[idx]? = some c.1 ∧ buf'[idx + 1]? = some c.2.1 ∧
      buf'[idx + 2]? = some c.2.2.1 ∧ buf'[idx + 3]? = some c.2.2.2 := by
  refine ⟨_, writePixel_eq buf idx c h, by simp [List.length_set], ?_, ?_, ?_, ?_, ?_⟩
  · intro j hj
    rw [List.getElem?_set_ne (by omega), List.getElem?_set_ne (by omega),
      List.getElem?_set_ne (by omega), List.getElem?_set_ne (by omega)]
  · rw [List.getElem?_set_ne (by omega), List.getElem?_set_ne (by omega),
      List.getElem?_set_ne (by omega)]
    exact List.getElem?_set_eq_of_lt _ (by omega)
  · rw [List.getElem?_set_ne (by omega), List.getElem?_set_ne (by omega)]
    exact List.getElem?_set_eq_of_lt _ (by simp [List.length_set]; omega)
  · rw [List.getElem?_set_ne (by omega)]
    exact List.getElem?_set_eq_of_lt _ (by simp [List.length_set]; omega)
  · exact List.getElem?_set_eq_of_lt _ (by simp [List.length_set]; omega)

lemma pixelIdx_eq (w h x y : ℕ) (hx : x < w) (hy : y < h) (hov : w * h * 4 < U32) :
    pixelIdx w x y = (y * w + x) * 4 ∧ (y * w + x) * 4 + 3 < w * h * 4 := by
  have hU : U32 = 4294967296 := by norm_num [U32]
  have h1 : y * w + x < w * h := by
    calc y * w + x < y * w + w := by omega
      _ = (y + 1) * w := by ring
      _ ≤ h * w := Nat.mul_le_mul_right w hy
      _ = w * h := Nat.mul_comm h w
  rw [hU] at hov
  unfold pixelIdx
  rw [hU]
  omega

lemma foldlM_range_head_none {β : Type} (f : β → ℕ → Option β) (b : β) (n : ℕ)
    (hn : 0 < n) (h0 : f b 0 = none) : (List.range n).foldlM f b = none := by
  obtain ⟨m, rfl⟩ : ∃ m, n = m + 1 := ⟨n - 1, by omega⟩
  rw [List.range_succ_eq_map, List.foldlM_cons, h0]
  rfl

lemma foldlM_some_const {β : Type} (l : List ℕ) (g : β → ℕ → Option β) (b : β)
    (hg : ∀ b' a, g b' a = some b') : l.foldlM g b = some b := by
  induction l generalizing b with
  | nil => rfl
  | cons a l ih =>
    rw [List.foldlM_cons, hg]
    exact ih b

lemma innerFold (log : F64 → F64) (w h : ℕ) (cx0 cy0 zoom : F64) (mi pid y : ℕ)
    (hy : y < h) (hov : w * h * 4 < U32) :
    ∀ n, n ≤ w → ∀ buf : List ℕ, buf.length = w * h * 4 →
    ∃ buf',
      (List.range n).foldlM (renderPixel log w h cx0 cy0 zoom mi pid y) buf = some buf' ∧
      buf'.length = w * h * 4 ∧
      (∀ j, j < y * w * 4 ∨ (y * w + n) * 4 ≤ j → buf'[j]? = buf[j]?) ∧
      (∀ x, x < n → ∀ c, pixelColor log w h cx0 cy0 zoom mi pid x y = some c →
        buf'[(y * w + x) * 4]? = some c.1 ∧
        buf'[(y * w + x) * 4 + 1]? = some c.2.1 ∧
        buf'[(y * w + x) * 4 + 2]? = some c.2.2.1 ∧
        buf'[(y * w + x) * 4 + 3]? = some c.2.2.2) := by
  intro n
  induction n with
  | zero =>
    intro _ buf hbuf
    exact ⟨buf, by simp, hbuf, fun j _ => rfl, fun x hx => absurd hx (by omega)⟩
  | succ n ih =>
    intro hn buf hbuf
    obtain ⟨bufn, hfold, hlen, huntouched, hdone⟩ := ih (by omega) buf hbuf
    obtain ⟨c0, hc0, -⟩ := pixelColor_isSome log w h cx0 cy0 zoom mi pid n y
    have hxn : n < w := by omega
    obtain ⟨hidx, hbound⟩ := pixelIdx_eq w h n y hxn hy hov
    have hbound' : (y * w + n) * 4 + 3 < bufn.length := by rw [hlen]; exact hbound
    obtain ⟨buf', hwp, hlen', hunt', h0, h1, h2, h3⟩ :=
      writePixel_some bufn ((y * w + n) * 4) c0 hbound'
    refine ⟨buf', ?_, by rw [hlen', hlen], ?_, ?_⟩
    · rw [List.range_succ, List.foldlM_append, hfold]
      show List.foldlM (renderPixel log w h cx0 cy0 zoom mi pid y) bufn [n] = some buf'
      simp only [List.foldlM_cons, List.foldlM_nil]
      simp only [renderPixel, hc0, hidx, hwp]
      rfl
    · intro j hj
      have hstep : buf'[j]? = bufn[j]? := by
        apply hunt'
        omega
      rw [hstep]
      apply huntouched
      omega
    · intro x hx c hc
      rcases Nat.lt_or_ge x n with hxlt | hxge
      · obtain ⟨ha, hb, hcc, hd⟩ := hdone x hxlt c hc
        refine ⟨?_, ?_, ?_, ?_⟩
        · rw [hunt' _ (Or.inl (by omega))]; exact ha
        · rw [hunt' _ (Or.inl (by omega))]; exact hb
        · rw [hunt' _ (Or.inl (by omega))]; exact hcc
        · rw [hunt' _ (Or.inl (by omega))]; exact hd
      · have hxeq : x = n := by omega
        subst hxeq
        have hceq : c = c0 := by
          rw [hc] at hc0
          exact Option.some.inj hc0
        subst hceq
        exact ⟨h0, h1, h2, h3⟩

lemma outerFold (log : F64 → F64) (w h : ℕ) (cx0 cy0 zoom : F64) (mi pid : ℕ)
    (hov : w * h * 4 < U32) :
    ∀ m, m ≤ h → ∀ buf : List ℕ, buf.length = w * h * 4 →
    ∃ buf',
      (List.range m).foldlM
        (fun b y => (List.range w).foldlM
          (renderPixel log w h cx0 cy0 zoom mi pid y) b) buf = some buf' ∧
      buf'.length = w * h * 4 ∧
      (∀ x y, x < w → y < m → ∀ c, pixelColor log w h cx0 cy0 zoom mi pid x y = some c →
        buf'[(y * w + x) * 4]? = some c.1 ∧
        buf'[(y * w + x) * 4 + 1]? = some c.2.1 ∧
        buf'[(y * w + x) * 4 + 2]? = some c.2.2.1 ∧
        buf'[(y * w + x) * 4 + 3]? = some c.2.2.2) := by
  intro m
  induction m with
  | zero =>
    intro _ buf hbuf
    exact ⟨buf, by simp, hbuf, fun x y hx hy => absurd hy (by omega)⟩
  | succ m ih =>
    intro hm buf hbuf
    obtain ⟨bufm, hfold, hlen, hdone⟩ := ih (by omega) buf hbuf
    obtain ⟨buf', hrow, hlen', hunt', hrowdone⟩ :=
      innerFold log w h cx0 cy0 zoom mi pid m (by omega) hov w le_rfl bufm hlen
    refine ⟨buf', ?_, hlen', ?_⟩
    · rw [List.range_succ, List.foldlM_append, hfold]
      show List.foldlM
        (fun b y => (List.range w).foldlM
          (renderPixel log w h cx0 cy0 zoom mi pid y) b) bufm [m] = some buf'
      simp only [List.foldlM_cons, List.foldlM_nil]
      show (List.range w).foldlM (renderPixel log w h cx0 cy0 zoom mi pid m) bufm >>=
        (fun b => pure b) = some buf'
      rw [hrow]
      rfl
    · intro x y hx hy c hc
      rcases Nat.lt_or_ge y m with hylt | hyge
      · obtain ⟨ha, hb, hcc, hd⟩ := hdone x y hx hylt c hc
        have hrowlt : y * w + x < m * w := by
          calc y * w + x < y * w + w := by omega
            _ = (y + 1) * w := by ring
            _ ≤ m * w := Nat.mul_le_mul_right w hylt
        refine ⟨?_, ?_, ?_, ?_⟩
        · rw [hunt' _ (Or.inl (by omega))]; exact ha
        · rw [hunt' _ (Or.inl (by omega))]; exact hb
        · rw [hunt' _ (Or.inl (by omega))]; exact hcc
        · rw [hunt' _ (Or.inl (by omega))]; exact hd
      · have hyeq : y = m := by omega
        subst hyeq
        exact hrowdone x hx c hc

lemma generate_fractal_eq (log : F64 → F64) (w h : ℕ) (cx0 cy0 zoom : F64)
    (mi pid : ℕ) (hov : w * h * 4 < U32) :
    ∃ buf, generate_fractal log w h cx0 cy0 zoom mi pid = some buf ∧
      buf.length = w * h * 4 ∧
      (∀ x y, x < w → y < h → ∀ c, pixelColor log w h cx0 cy0 zoom mi pid x y = some c →
        buf[(y * w + x) * 4]? = some c.1 ∧
        buf[(y * w + x) * 4 + 1]? = some c.2.1 ∧
        buf[(y * w + x) * 4 + 2]? = some c.2.2.1 ∧
        buf[(y * w + x) * 4 + 3]? = some c.2.2.2) := by
  have hU : U32 = 4294967296 := by norm_num [U32]
  have hrep : (List.replicate (w * h % U32 * 4 % U32) (0 : ℕ)).length = w * h * 4 := by
    rw [List.length_replicate, hU]
    rw [hU] at hov
    omega
  obtain ⟨buf, h1, h2, h3⟩ := outerFold log w h cx0 cy0 zoom mi pid hov h le_rfl _ hrep
  exact ⟨buf, h1, h2, h3⟩

end SigmaWasm

namespace SigmaWasm

/-- C1 (amended): whenever width * height * 4 is below 2 ^ 32 (no u32
overflow), generate_fractal returns a byte sequence of exactly
width * height * 4 bytes, and every byte whose index is congruent to 3
modulo 4 (the alpha channel) equals 255. -/
theorem C1_buffer_shape (log : F64 → F64) (w h : ℕ) (cx0 cy0 zoom : F64)
    (mi pid : ℕ) (hov : w * h * 4 < U32) :
    ∃ buf, generate_fractal log w h cx0 cy0 zoom mi pid = some buf ∧
      buf.length = w * h * 4 ∧
      ∀ j, j < w * h * 4 → j % 4 = 3 → buf[j]? = some 255 := by
  obtain ⟨buf, h1, h2, h3⟩ := generate_fractal_eq log w h cx0 cy0 zoom mi pid hov
  refine ⟨buf, h1, h2, ?_⟩
  intro j hj hj4
  rcases Nat.eq_zero_or_pos w with hw0 | hw
  · subst hw0; simp at hj
  rcases Nat.eq_zero_or_pos h with hh0 | hh
  · subst hh0; simp at hj
  set p := j / 4 with hpdef
  set x := p % w with hxdef
  set y := p / w with hydef
  have hp : p < w * h := by omega
  have hx : x < w := Nat.mod_lt _ hw
  have hp2 : p < h * w := by rw [Nat.mul_comm h w]; exact hp
  have hyy : y < h := (Nat.div_lt_iff_lt_mul hw).mpr hp2
  have hpxy : y * w + x = p := by
    have h0 := Nat.div_add_mod p w
    calc y * w + x = (p / w) * w + p % w := rfl
      _ = w * (p / w) + p % w := by ring
      _ = p := h0
  obtain ⟨c, hcsome, hca⟩ := pixelColor_isSome log w h cx0 cy0 zoom mi pid x y
  obtain ⟨-, -, -, hd⟩ := h3 x y hx hyy c hcsome
  have hjeq : j = (y * w + x) * 4 + 3 := by rw [hpxy]; omega
  rw [hjeq, hd, hca]

/-- Witness: C1_buffer_shape instantiated at a 1 by 1 image. -/
theorem C1_buffer_shape_witness :
    1 * 1 * 4 < U32 ∧
    ∃ buf, generate_fractal logLin 1 1 (some 0) (some 0) (some 1) 0 0 = some buf ∧
      buf.length = 1 * 1 * 4 ∧
      ∀ j, j < 1 * 1 * 4 → j % 4 = 3 → buf[j]? = some 255 :=
  ⟨by norm_num [U32],
   C1_buffer_shape logLin 1 1 (some 0) (some 0) (some 1) 0 0 (by norm_num [U32])⟩

/-- C1 counterexample: at width 2 ^ 30 and height 1 the u32 product
width * height * 4 wraps to 0, the allocated buffer is empty, and the
first pixel store goes out of bounds, so generate_fractal panics
instead of returning a byte sequence of width * height * 4 bytes. -/
theorem C1_overflow_cex :
    generate_fractal logLin (2 ^ 30) 1 (some 0) (some 0) (some 1) 0 0 = none := by
  have hL : 2 ^ 30 * 1 % U32 * 4 % U32 = 0 := by norm_num [U32]
  unfold generate_fractal
  rw [hL]
  apply foldlM_range_head_none _ _ 1 one_pos
  show (List.range (2 ^ 30)).foldlM
    (renderPixel logLin (2 ^ 30) 1 (some 0) (some 0) (some 1) 0 0 0)
    (List.replicate 0 0) = none
  apply foldlM_range_head_none _ _ _ (by norm_num)
  decide

/-- C3: every pixel whose escape loop reaches max_iters without the
squared magnitude passing 4 is stored as opaque black (0, 0, 0, 255)
at byte offset (y * width + x) * 4. -/
theorem C3_inside_black (log : F64 → F64) (w h : ℕ) (cx0 cy0 zoom : F64)
    (mi pid x y : ℕ) (hx : x < w) (hy : y < h) (hov : w * h * 4 < U32)
    (hin : mi ≤ (pixelState w h cx0 cy0 zoom mi x y).2) :
    ∃ buf, generate_fractal log w h cx0 cy0 zoom mi pid = some buf ∧
      buf[(y * w + x) * 4]? = some 0 ∧
      buf[(y * w + x) * 4 + 1]? = some 0 ∧
      buf[(y * w + x) * 4 + 2]? = some 0 ∧
      buf[(y * w + x) * 4 + 3]? = some 255 := by
  have hpc : pixelColor log w h cx0 cy0 zoom mi pid x y = some (0, 0, 0, 255) := by
    simp [pixelColor, hin]
  obtain ⟨buf, h1, -, h3⟩ := generate_fractal_eq log w h cx0 cy0 zoom mi pid hov
  obtain ⟨ha, hb, hc, hd⟩ := h3 x y hx hy _ hpc
  exact ⟨buf, h1, ha, hb, hc, hd⟩

lemma iterLoop_origin : ∀ fuel it : ℕ,
    iterLoop (some 0) (some 0) fuel ((some 0, some 0), it) = ((some 0, some 0), it + fuel) := by
  intro fuel
  induction fuel with
  | zero => intro it; rfl
  | succ n ih =>
    intro it
    rw [iterLoop, if_pos (by norm_num [zMagSq, fadd, fmul, flt])]
    rw [show iterStep (some 0) (some 0) ((some 0 : F64), (some 0 : F64)) =
      ((some 0 : F64), (some 0 : F64)) from by norm_num [iterStep, fadd, fsub, fmul]]
    rw [ih]
    have : it + 1 + n = it + (n + 1) := by omega
    rw [this]

lemma pixelState_origin_2x2 :
    pixelState 2 2 (some 0) (some 0) (some 1) 100 1 1 = ((some 0, some 0), 100) := by
  have hcx : pixel_cx 2 2 (some 0) (some 1) 1 = some 0 := by
    norm_num [pixel_cx, fadd, fdiv, fmul, fsub]
  have hcy : pixel_cy 2 (some 0) (some 1) 1 = some 0 := by
    norm_num [pixel_cy, fadd, fdiv, fmul, fsub]
  rw [pixelState, hcx, hcy, iterLoop_origin]

/-- Witness: C3_inside_black at the pixel (1, 1) of a 2 by 2 image with
center (0, 0) and zoom 1, which maps to the complex origin, a point of
the Mandelbrot set, with max_iters = 100. -/
theorem C3_inside_black_witness :
    (1 < 2 ∧ 2 * 2 * 4 < U32 ∧
      100 ≤ (pixelState 2 2 (some 0) (some 0) (some 1) 100 1 1).2) ∧
    ∃ buf, generate_fractal logLin 2 2 (some 0) (some 0) (some 1) 100 0 = some buf ∧
      buf[(1 * 2 + 1) * 4]? = some 0 ∧
      buf[(1 * 2 + 1) * 4 + 1]? = some 0 ∧
      buf[(1 * 2 + 1) * 4 + 2]? = some 0 ∧
      buf[(1 * 2 + 1) * 4 + 3]? = some 255 :=
  ⟨⟨by norm_num, by norm_num [U32], by rw [pixelState_origin_2x2]⟩,
   C3_inside_black logLin 2 2 (some 0) (some 0) (some 1) 100 0 1 1
     (by norm_num) (by norm_num) (by norm_num [U32]) (by rw [pixelState_origin_2x2])⟩

/-- C4 (amended): when max_iters = 0 the escape loop runs zero times,
the inside-the-set guard iterations at least max_iters holds at every
pixel, and every pixel is written through the black branch as
(0, 0, 0, 255); get_color is never consulted. -/
theorem C4_zero_max_iters (log : F64 → F64) (w h : ℕ) (cx0 cy0 zoom : F64)
    (pid x y : ℕ) :
    pixelColor log w h cx0 cy0 zoom 0 pid x y = some (0, 0, 0, 255) := rfl

/-- C4 counterexample: with max_iters = 0, at the single pixel of a
1 by 1 image the loop state is z = 0 with iterations = 0, the squared
magnitude is still below 4 (the pixel has not escaped), and the
inside-the-set guard holds, so the black branch is taken - refuting the
claim that every pixel takes the escaped branch with smoothing. -/
theorem C4_zero_max_iters_cex :
    (pixelState 1 1 (some 0) (some 0) (some 1) 0 0 0).2 = 0 ∧
    0 ≤ (pixelState 1 1 (some 0) (some 0) (some 1) 0 0 0).2 ∧
    flt (zMagSq (pixelState 1 1 (some 0) (some 0) (some 1) 0 0 0).1) (some 4) = true ∧
    pixelColor logLin 1 1 (some 0) (some 0) (some 1) 0 0 0 0 = some (0, 0, 0, 255) := by
  refine ⟨rfl, Nat.zero_le _, ?_, rfl⟩
  show flt (zMagSq ((some 0 : F64), (some 0 : F64))) (some 4) = true
  norm_num [zMagSq, fadd, fmul, flt]

/-- C10: with height 0, and likewise with width 0, the allocated buffer
is empty and the pixel loops run zero times, so generate_fractal
returns the well-defined empty byte sequence for every logarithm and
all other arguments. -/
theorem C10_degenerate (log : F64 → F64) (w h : ℕ) (cx0 cy0 zoom : F64)
    (mi pid : ℕ) :
    generate_fractal log w 0 cx0 cy0 zoom mi pid = some [] ∧
    generate_fractal log 0 h cx0 cy0 zoom mi pid = some [] := by
  constructor
  · unfold generate_fractal
    simp
  · unfold generate_fractal
    rw [show 0 * h % U32 * 4 % U32 = 0 by simp]
    apply foldlM_some_const
    intro b' a
    simp

end SigmaWasm

namespace SigmaWasm

/-- C5: for 0 <= iterations < max_iterations (the domain on which the
spec asserts the normalized value lies in the unit interval), get_color
computes exactly the claimed interpolation: scaled position, floor
index, clamped second index, fractional weight, and channels truncated
toward zero, matching specColor, the formula transcribed from the
claim.  The witness checks the exactness instance get_color(0,100,0). -/
theorem C5_interpolation (it mx : ℚ) (pid : ℕ) (h0 : 0 ≤ it) (h1 : it < mx) :
    colorIdx1 (some it) (some mx) = (⌊it / mx * (5 - 1)⌋).toNat ∧
    colorIdx2 (some it) (some mx) = (min (⌊it / mx * (5 - 1)⌋ + 1) 4).toNat ∧
    colorT (some it) (some mx) =
      some (it / mx * (5 - 1) - (⌊it / mx * (5 - 1)⌋ : ℚ)) ∧
    get_color (some it) (some mx) pid = some (specColor it mx pid) := by
  have hmx : 0 < mx := lt_of_le_of_lt h0 h1
  have hne : mx ≠ 0 := ne_of_gt hmx
  set S : ℚ := it / mx * (5 - 1) with hSdef
  have hS0 : 0 ≤ S := by
    rw [hSdef]
    apply mul_nonneg (div_nonneg h0 hmx.le)
    norm_num
  have hS4 : S < 4 := by
    have hd : it / mx < 1 := (div_lt_one hmx).mpr h1
    have hd0 : 0 ≤ it / mx := div_nonneg h0 hmx.le
    rw [hSdef]
    nlinarith
  have hfl0 : 0 ≤ ⌊S⌋ := Int.floor_nonneg.mpr hS0
  have hfl3 : ⌊S⌋ ≤ 3 := by
    have h4 : ⌊S⌋ < 4 := Int.floor_lt.mpr (by exact_mod_cast hS4)
    omega
  have hscaled : colorScaled (some it) (some mx) = some S := by
    rw [hSdef, colorScaled,
      show fdiv (some it) (some mx) = some (it / mx) from by simp [fdiv, hne]]
    rfl
  have hidx1 : colorIdx1 (some it) (some mx) = (⌊S⌋).toNat := by
    rw [colorIdx1, hscaled]
    show min (2 ^ 32 - 1) (Int.toNat ⌊((⌊S⌋ : ℤ) : ℚ)⌋) = (⌊S⌋).toNat
    rw [Int.floor_intCast]
    have hle : (⌊S⌋).toNat ≤ 2 ^ 32 - 1 := by omega
    exact Nat.min_eq_right hle
  have hk2 : colorIdx2 (some it) (some mx) = min ((⌊S⌋).toNat + 1) 4 := by
    rw [colorIdx2, hidx1]
  have hT : colorT (some it) (some mx) = some (S - (⌊S⌋ : ℚ)) := by
    rw [colorT, hscaled]
    rfl
  have ht0 : 0 ≤ S - (⌊S⌋ : ℚ) := sub_nonneg.mpr (Int.floor_le S)
  have ht1 : S - (⌊S⌋ : ℚ) < 1 := by
    have := Int.lt_floor_add_one S
    linarith
  obtain ⟨c1, hc1, hr1, hg1, hb1⟩ := colorPalette_get pid (⌊S⌋).toNat (by omega)
  obtain ⟨c2, hc2, hr2, hg2, hb2⟩ :=
    colorPalette_get pid (min ((⌊S⌋).toNat + 1) 4) (by omega)
  have hge : fge (some it) (some mx) = false := by
    simp only [fge, decide_eq_false_iff_not, not_le]
    exact h1
  have hmain : get_color (some it) (some mx) pid =
      some (lerpChannel c1.r c2.r (some (S - (⌊S⌋ : ℚ))),
        lerpChannel c1.g c2.g (some (S - (⌊S⌋ : ℚ))),
        lerpChannel c1.b c2.b (some (S - (⌊S⌋ : ℚ)))) := by
    rw [get_color, if_neg (by rw [hge]; exact Bool.false_ne_true)]
    rw [hidx1, hk2, hc1, hc2]
    show (let t := colorT (some it) (some mx);
      some (lerpChannel c1.r c2.r t, lerpChannel c1.g c2.g t,
        lerpChannel c1.b c2.b t)) = _
    rw [hT]
  have hgetd1 : (colorPalette pid).getD (⌊S⌋).toNat ⟨0, 0, 0⟩ = c1 := by
    rw [List.getD_eq_getElem?_getD, hc1]
    rfl
  have hidx2Z : (min (⌊S⌋ + 1) 4).toNat = min ((⌊S⌋).toNat + 1) 4 := by omega
  have hgetd2 : (colorPalette pid).getD (min (⌊S⌋ + 1) 4).toNat ⟨0, 0, 0⟩ = c2 := by
    rw [hidx2Z, List.getD_eq_getElem?_getD, hc2]
    rfl
  have hspec : specColor it mx pid =
      (lerpChannel c1.r c2.r (some (S - (⌊S⌋ : ℚ))),
        lerpChannel c1.g c2.g (some (S - (⌊S⌋ : ℚ))),
        lerpChannel c1.b c2.b (some (S - (⌊S⌋ : ℚ)))) := by
    rw [specColor]
    show ((truncZ ((((colorPalette pid).getD (⌊S⌋).toNat ⟨0, 0, 0⟩).r : ℚ) *
        (1 - (S - (⌊S⌋ : ℚ))) +
        (((colorPalette pid).getD (min (⌊S⌋ + 1) 4).toNat ⟨0, 0, 0⟩).r : ℚ) *
        (S - (⌊S⌋ : ℚ)))).toNat,
      (truncZ ((((colorPalette pid).getD (⌊S⌋).toNat ⟨0, 0, 0⟩).g : ℚ) *
        (1 - (S - (⌊S⌋ : ℚ))) +
        (((colorPalette pid).getD (min (⌊S⌋ + 1) 4).toNat ⟨0, 0, 0⟩).g : ℚ) *
        (S - (⌊S⌋ : ℚ)))).toNat,
      (truncZ ((((colorPalette pid).getD (⌊S⌋).toNat ⟨0, 0, 0⟩).b : ℚ) *
        (1 - (S - (⌊S⌋ : ℚ))) +
        (((colorPalette pid).getD (min (⌊S⌋ + 1) 4).toNat ⟨0, 0, 0⟩).b : ℚ) *
        (S - (⌊S⌋ : ℚ)))).toNat) = _
    rw [hgetd1, hgetd2]
    rw [lerp_eq_trunc c1.r c2.r hr1 hr2 _ ht0 ht1,
      lerp_eq_trunc c1.g c2.g hg1 hg2 _ ht0 ht1,
      lerp_eq_trunc c1.b c2.b hb1 hb2 _ ht0 ht1]
  exact ⟨hidx1, by rw [hk2, hidx2Z], hT, by rw [hmain, hspec]⟩

end SigmaWasm

namespace SigmaWasm

/-- Witness: C5_interpolation at get_color(0, 100, 0), which returns
palette 0 first colour, cyan (0, 255, 255), exactly. -/
theorem C5_interpolation_witness :
    (0 : ℚ) ≤ 0 ∧ (0 : ℚ) < 100 ∧
    get_color (some 0) (some 100) 0 = some (0, 255, 255) := by
  refine ⟨le_rfl, by norm_num, ?_⟩
  have h := (C5_interpolation 0 100 0 le_rfl (by norm_num)).2.2.2
  rw [h]
  norm_num [specColor, truncZ, colorPalette, PALETTE0, List.getD_eq_getElem?_getD]
  rfl

lemma pixelState_escape_2x2 :
    pixelState 2 2 (some 0) (some 0) (some 1) 100 0 0 = ((some (-2), some (-2)), 1) := by
  have hcx : pixel_cx 2 2 (some 0) (some 1) 0 = some (-2) := by
    norm_num [pixel_cx, fadd, fdiv, fmul, fsub]
  have hcy : pixel_cy 2 (some 0) (some 1) 0 = some (-2) := by
    norm_num [pixel_cy, fadd, fdiv, fmul, fsub]
  rw [pixelState, hcx, hcy]
  show iterLoop (some (-2)) (some (-2)) (99 + 1) ((some 0, some 0), 0) = _
  rw [iterLoop, if_pos (by norm_num [zMagSq, fadd, fmul, flt])]
  rw [show iterStep (some (-2)) (some (-2)) ((some 0 : F64), (some 0 : F64)) =
    ((some (-2) : F64), (some (-2) : F64)) from by norm_num [iterStep, fadd, fsub, fmul]]
  show iterLoop (some (-2)) (some (-2)) (98 + 1) ((some (-2), some (-2)), 1) = _
  have hflt : flt (zMagSq ((some (-2) : F64), (some (-2) : F64))) (some 4) = false := by
    norm_num [zMagSq, fadd, fmul, flt]
  rw [iterLoop, if_neg (by rw [hflt]; exact Bool.false_ne_true)]

/-- C6: get_color returns opaque black whenever the f64 guard
iterations >= max_iterations holds; and the guard is unreachable from
generate_fractal: for every logarithm with the properties of the real
ln, at every escaped pixel (the only pixels on which generate_fractal
calls get_color, with max_iters at least 1 there), the smoothed count
compares strictly below max_iters, so the guard is false. -/
theorem C6_black_branch_unreachable :
    (∀ it mx : F64, ∀ pid : ℕ, fge it mx = true → get_color it mx pid = some (0, 0, 0)) ∧
    (∀ log : F64 → F64, LogModel log → ∀ w h : ℕ, ∀ cx0 cy0 zoom : F64, ∀ mi x y : ℕ,
      (pixelState w h cx0 cy0 zoom mi x y).2 < mi →
      fge (smoothIter log (pixelState w h cx0 cy0 zoom mi x y).1
        (pixelState w h cx0 cy0 zoom mi x y).2) (some (mi : ℚ)) = false) := by
  constructor
  · intro it mx pid hge
    rw [get_color, if_pos hge]
  · rintro log ⟨hnan, ⟨l2, hl2, hl2pos⟩, hln⟩ w h cx0 cy0 zoom mi x y hit
    have hexit : flt (zMagSq (pixelState w h cx0 cy0 zoom mi x y).1) (some 4) = false :=
      iterLoop_exit (pixel_cx w h cx0 zoom x) (pixel_cy h cy0 zoom y) mi
        ((some 0, some 0), 0) (by simpa using hit)
    cases hz : zMagSq (pixelState w h cx0 cy0 zoom mi x y).1 with
    | none =>
      rw [smoothIter, hz, hnan, hnan]
      rfl
    | some zq =>
      have hzq : (4 : ℚ) ≤ zq := by
        rw [hz] at hexit
        have : ¬ zq < 4 := by simpa [flt] using hexit
        exact not_lt.mp this
      obtain ⟨u, v, hu, hv, hvpos⟩ := hln zq hzq
      have hl2ne : l2 ≠ 0 := ne_of_gt hl2pos
      have hit1 : ((pixelState w h cx0 cy0 zoom mi x y).2 : ℚ) + 1 ≤ (mi : ℚ) := by
        have h2 : (pixelState w h cx0 cy0 zoom mi x y).2 + 1 ≤ mi := hit
        exact_mod_cast h2
      rw [smoothIter, hz, hu, hv, hl2]
      rw [show fdiv (some v) (some l2) = some (v / l2) from by simp [fdiv, hl2ne]]
      simp only [fadd, fsub, fge, decide_eq_false_iff_not, not_le]
      have hdivpos : 0 < v / l2 := div_pos hvpos hl2pos
      linarith

/-- Witness: C6_black_branch_unreachable, part one at the call
get_color(5, 3, 0) where the guard holds, part two at the escaped
pixel (0, 0) of a 2 by 2 image with the concrete logarithm logLin. -/
theorem C6_black_branch_unreachable_witness :
    (fge (some 5) (some 3) = true ∧ get_color (some 5) (some 3) 0 = some (0, 0, 0)) ∧
    ((pixelState 2 2 (some 0) (some 0) (some 1) 100 0 0).2 < 100 ∧
      fge (smoothIter logLin (pixelState 2 2 (some 0) (some 0) (some 1) 100 0 0).1
        (pixelState 2 2 (some 0) (some 0) (some 1) 100 0 0).2)
        (some ((100 : ℕ) : ℚ)) = false) := by
  have hge : fge (some 5) (some 3) = true := by
    simp only [fge, decide_eq_true_eq]
    norm_num
  refine ⟨⟨hge, C6_black_branch_unreachable.1 (some 5) (some 3) 0 hge⟩, ?_, ?_⟩
  · rw [pixelState_escape_2x2]
    norm_num
  · exact C6_black_branch_unreachable.2 logLin logLin_model 2 2 (some 0) (some 0)
      (some 1) 100 0 0 (by rw [pixelState_escape_2x2]; norm_num)

/-- C7 (amended): every nonzero id aliases to palette 1, palette 0
differs from palette 1, and palette 0 equals the literal float table of
the code, in which the byte 128 appears as the float 0.5 (not as
128/255), 255 as 1.0 and 0 as 0.0. -/
theorem C7_palette_tables :
    (∀ id : ℕ, id ≠ 0 → get_palette id = get_palette 1) ∧
    get_palette 0 ≠ get_palette 1 ∧
    get_palette 0 = [⟨0, 1, 1⟩, ⟨1, 0, 1⟩, ⟨1 / 2, 0, 1⟩, ⟨0, 1 / 2, 1⟩, ⟨1, 1, 0⟩] := by
  refine ⟨?_, ?_, rfl⟩
  · intro id hid
    simp [get_palette, hid]
  · norm_num [get_palette, MBPALETTE0, MBPALETTE1]

/-- Witness: C7_palette_tables at the nonzero id 7. -/
theorem C7_palette_tables_witness :
    (7 : ℕ) ≠ 0 ∧ get_palette 7 = get_palette 1 :=
  ⟨by norm_num, C7_palette_tables.1 7 (by norm_num)⟩

/-- C7 counterexample: the third colour of palette 0 has red channel
exactly 1/2 in the code, while the listed byte value 128 normalized to
the unit interval is 128/255, which is not 1/2; so the claim that each
float channel equals the listed byte value normalized to the unit
interval is false. -/
theorem C7_normalization_cex :
    (get_palette 0)[2]?.map ColorF.r = some (1 / 2) ∧ (1 : ℚ) / 2 ≠ 128 / 255 :=
  ⟨rfl, by norm_num⟩

/-- C8: get_flat_palette always returns 20 floats; it selects the same
palette as get_palette, and for each colour index i below 5 the entries
at 4i, 4i+1, 4i+2 are that colour r, g, b channels in palette order,
with the entry at 4i+3 equal to 1.0. -/
theorem C8_flat_palette (id : ℕ) :
    (get_flat_palette id).length = 20 ∧
    (∀ i, i < 5 → ∃ c, (get_palette id)[i]? = some c ∧
      (get_flat_palette id)[4 * i]? = some c.r ∧
      (get_flat_palette id)[4 * i + 1]? = some c.g ∧
      (get_flat_palette id)[4 * i + 2]? = some c.b ∧
      (get_flat_palette id)[4 * i + 3]? = some 1) := by
  by_cases hid : id = 0
  · subst hid
    refine ⟨rfl, ?_⟩
    intro i hi
    interval_cases i
    · exact ⟨⟨0, 1, 1⟩, rfl, rfl, rfl, rfl, rfl⟩
    · exact ⟨⟨1, 0, 1⟩, rfl, rfl, rfl, rfl, rfl⟩
    · exact ⟨⟨1 / 2, 0, 1⟩, rfl, rfl, rfl, rfl, rfl⟩
    · exact ⟨⟨0, 1 / 2, 1⟩, rfl, rfl, rfl, rfl, rfl⟩
    · exact ⟨⟨1, 1, 0⟩, rfl, rfl, rfl, rfl, rfl⟩
  · have hp : get_palette id = MBPALETTE1 := by simp [get_palette, hid]
    have hf : get_flat_palette id = get_flat_palette 1 := by
      simp [get_flat_palette, hid]
    rw [hf, hp]
    refine ⟨rfl, ?_⟩
    intro i hi
    interval_cases i
    · exact ⟨⟨1, 0, 1 / 2⟩, rfl, rfl, rfl, rfl, rfl⟩
    · exact ⟨⟨0, 1, 1 / 2⟩, rfl, rfl, rfl, rfl, rfl⟩
    · exact ⟨⟨1 / 2, 0, 1⟩, rfl, rfl, rfl, rfl, rfl⟩
    · exact ⟨⟨0, 1 / 2, 1⟩, rfl, rfl, rfl, rfl, rfl⟩
    · exact ⟨⟨1, 1 / 2, 0⟩, rfl, rfl, rfl, rfl, rfl⟩

/-- Witness: C8_flat_palette at id 3 and colour index 2. -/
theorem C8_flat_palette_witness :
    (get_flat_palette 3).length = 20 ∧ 2 < 5 ∧
    (∃ c, (get_palette 3)[2]? = some c ∧
      (get_flat_palette 3)[4 * 2]? = some c.r ∧
      (get_flat_palette 3)[4 * 2 + 1]? = some c.g ∧
      (get_flat_palette 3)[4 * 2 + 2]? = some c.b ∧
      (get_flat_palette 3)[4 * 2 + 3]? = some 1) :=
  ⟨(C8_flat_palette 3).1, by norm_num, (C8_flat_palette 3).2 2 (by norm_num)⟩

/-- C9: for every f64 iterations value, NaN and arbitrarily negative
values included, and every positive max_iterations, get_color returns
some byte triple without panicking, and on the branch that reads the
palette both computed indices are at most 4, hence in bounds for the
5-entry palettes; the saturating float casts make this hold. -/
theorem C9_no_panic (it : F64) (mx : ℚ) (hmx : 0 < mx) (pid : ℕ) :
    (∃ c, get_color it (some mx) pid = some c) ∧
    (fge it (some mx) = false →
      colorIdx1 it (some mx) ≤ 4 ∧ colorIdx2 it (some mx) ≤ 4) := by
  refine ⟨get_color_total it mx hmx.le pid, ?_⟩
  intro hge
  have h1 := colorIdx1_le it mx hmx.le hge
  exact ⟨by omega, colorIdx2_le it (some mx)⟩

/-- Witness: C9_no_panic at iterations NaN with max_iterations 100. -/
theorem C9_no_panic_witness :
    (0 : ℚ) < 100 ∧
    (∃ c, get_color none (some 100) 0 = some c) ∧
    (fge none (some 100) = false →
      colorIdx1 none (some 100) ≤ 4 ∧ colorIdx2 none (some 100) ≤ 4) :=
  ⟨by norm_num, C9_no_panic none 100 (by norm_num) 0⟩

end SigmaWasm

namespace SigmaWasm

/-- C2: the coordinate mapping and escape loop of generate_fractal
agree with the formulas transcribed from the claim (first conjunct,
with aspect_ratio = width / height inside spec_cx), and for every
in-range pixel of a non-overflowing image whose point escapes before
max_iters, the output stores at byte offset (y * width + x) * 4 the
RGB triple returned by get_color applied to the claimed smoothed count
iterations + 1 - ln (ln (zsq)) / ln 2 of the escape-time squared
magnitude, with alpha 255. -/
theorem C2_pixel_formula (log : F64 → F64) (w h : ℕ) (cx0 cy0 zoom : F64)
    (mi pid x y : ℕ) (hx : x < w) (hy : y < h) (hov : w * h * 4 < U32)
    (hesc : (iterLoop (spec_cx w h x zoom cx0) (spec_cy h y zoom cy0) mi
      ((some 0, some 0), 0)).2 < mi) :
    pixelState w h cx0 cy0 zoom mi x y =
      iterLoop (spec_cx w h x zoom cx0) (spec_cy h y zoom cy0) mi
        ((some 0, some 0), 0) ∧
    ∃ buf r g b,
      generate_fractal log w h cx0 cy0 zoom mi pid = some buf ∧
      get_color (specSmooth log
          (zMagSq (iterLoop (spec_cx w h x zoom cx0) (spec_cy h y zoom cy0) mi
            ((some 0, some 0), 0)).1)
          (iterLoop (spec_cx w h x zoom cx0) (spec_cy h y zoom cy0) mi
            ((some 0, some 0), 0)).2) (some (mi : ℚ)) pid = some (r, g, b) ∧
      buf[(y * w + x) * 4]? = some r ∧
      buf[(y * w + x) * 4 + 1]? = some g ∧
      buf[(y * w + x) * 4 + 2]? = some b ∧
      buf[(y * w + x) * 4 + 3]? = some 255 := by
  refine ⟨rfl, ?_⟩
  obtain ⟨⟨r, g, b⟩, hgc⟩ := get_color_total
    (specSmooth log
      (zMagSq (iterLoop (spec_cx w h x zoom cx0) (spec_cy h y zoom cy0) mi
        ((some 0, some 0), 0)).1)
      (iterLoop (spec_cx w h x zoom cx0) (spec_cy h y zoom cy0) mi
        ((some 0, some 0), 0)).2) (mi : ℚ) (Nat.cast_nonneg mi) pid
  have hnb : ¬ mi ≤ (pixelState w h cx0 cy0 zoom mi x y).2 := by
    exact not_le.mpr hesc
  have hpc : pixelColor log w h cx0 cy0 zoom mi pid x y = some (r, g, b, 255) := by
    simp only [pixelColor]
    rw [if_neg hnb]
    have hsm : smoothIter log (pixelState w h cx0 cy0 zoom mi x y).1
        (pixelState w h cx0 cy0 zoom mi x y).2 =
        specSmooth log
          (zMagSq (iterLoop (spec_cx w h x zoom cx0) (spec_cy h y zoom cy0) mi
            ((some 0, some 0), 0)).1)
          (iterLoop (spec_cx w h x zoom cx0) (spec_cy h y zoom cy0) mi
            ((some 0, some 0), 0)).2 := rfl
    rw [hsm, hgc]
  obtain ⟨buf, h1, -, h3⟩ := generate_fractal_eq log w h cx0 cy0 zoom mi pid hov
  obtain ⟨ha, hb, hcc, hd⟩ := h3 x y hx hy _ hpc
  exact ⟨buf, r, g, b, h1, hgc, ha, hb, hcc, hd⟩

/-- Witness: C2_pixel_formula at the escaped pixel (0, 0) of a 2 by 2
image with center (0, 0), zoom 1, max_iters 100 and the concrete
logarithm logLin. -/
theorem C2_pixel_formula_witness :
    (0 < 2 ∧ 2 * 2 * 4 < U32 ∧
      (iterLoop (spec_cx 2 2 0 (some 1) (some 0)) (spec_cy 2 0 (some 1) (some 0)) 100
        ((some 0, some 0), 0)).2 < 100) ∧
    (pixelState 2 2 (some 0) (some 0) (some 1) 100 0 0 =
      iterLoop (spec_cx 2 2 0 (some 1) (some 0)) (spec_cy 2 0 (some 1) (some 0)) 100
        ((some 0, some 0), 0) ∧
    ∃ buf r g b,
      generate_fractal logLin 2 2 (some 0) (some 0) (some 1) 100 0 = some buf ∧
      get_color (specSmooth logLin
          (zMagSq (iterLoop (spec_cx 2 2 0 (some 1) (some 0))
            (spec_cy 2 0 (some 1) (some 0)) 100 ((some 0, some 0), 0)).1)
          (iterLoop (spec_cx 2 2 0 (some 1) (some 0))
            (spec_cy 2 0 (some 1) (some 0)) 100 ((some 0, some 0), 0)).2)
        (some ((100 : ℕ) : ℚ)) 0 = some (r, g, b) ∧
      buf[(0 * 2 + 0) * 4]? = some r ∧
      buf[(0 * 2 + 0) * 4 + 1]? = some g ∧
      buf[(0 * 2 + 0) * 4 + 2]? = some b ∧
      buf[(0 * 2 + 0) * 4 + 3]? = some 255) := by
  have hesc : (iterLoop (spec_cx 2 2 0 (some 1) (some 0)) (spec_cy 2 0 (some 1) (some 0))
      100 ((some 0, some 0), 0)).2 < 100 := by
    show (pixelState 2 2 (some 0) (some 0) (some 1) 100 0 0).2 < 100
    rw [pixelState_escape_2x2]
    norm_num
  exact ⟨⟨by norm_num, by norm_num [U32], hesc⟩,
    C2_pixel_formula logLin 2 2 (some 0) (some 0) (some 1) 100 0 0 0
      (by norm_num) (by norm_num) (by norm_num [U32]) hesc⟩

end SigmaWasm
